import Mathlib

namespace GitNexus

/-
  Verification development for the GitNexus core: a derived, queryable
  graph representation of a source-code repository (KuzuDB-backed),
  with incremental ingestion, impact analysis, and a git-native sync
  protocol.  Definitions are shallow embeddings of the repository
  sources (src/core/kuzu/schema.ts, gitnexus-mcp/src/mcp/tools.ts,
  src/components/CodeReferencesPanel.tsx); engines whose implementation
  is not part of the provided sources are modelled from the
  specification, as marked in their doc comments.
-/

/- ===================================================================
   Kuzu schema declarations, from src/src/core/kuzu/schema.ts
   =================================================================== -/

def NODE_TABLE_NAME : String := "CodeNode"
def EDGE_TABLE_NAME : String := "CodeRelation"
def EMBEDDING_TABLE_NAME : String := "CodeEmbedding"

/-- A column declaration of a Kuzu table: column name and Kuzu type. -/
structure ColumnDecl where
  colName : String
  colType : String
deriving DecidableEq, Repr

/-- Columns of the CodeNode node table, transcribed from NODE_SCHEMA
(schema.ts lines 20-30): id, label, name, filePath, startLine, endLine,
content. -/
def nodeSchemaColumns : List ColumnDecl :=
  [⟨"id", "STRING"⟩, ⟨"label", "STRING"⟩, ⟨"name", "STRING"⟩,
   ⟨"filePath", "STRING"⟩, ⟨"startLine", "INT64"⟩, ⟨"endLine", "INT64"⟩,
   ⟨"content", "STRING"⟩]

/-- The declared primary key of the CodeNode table (schema.ts line 29:
PRIMARY KEY (id)). -/
def nodeSchemaPrimaryKey : String := "id"

/-- Columns of the CodeRelation rel table, transcribed from EDGE_SCHEMA
(schema.ts lines 56-60): CREATE REL TABLE CodeRelation
(FROM CodeNode TO CodeNode, type STRING).  The only declared property
column is type. -/
def edgeSchemaColumns : List ColumnDecl := [⟨"type", "STRING"⟩]

/-- Refinement comparison target, following the words of the
specification for CodeRelation: the edge table optionally carries a
step integer (for STEP_IN_PROCESS) and a confidence float (for
heuristically resolved CALLS). -/
def specEdgeOptionalAttributes : List ColumnDecl :=
  [⟨"step", "INT64"⟩, ⟨"confidence", "FLOAT"⟩]

/-- Edge properties that the cypher tool description in
gitnexus-mcp/src/mcp/tools.ts reads in its documented example queries:
the pattern CodeRelation (type: ...) and the STEP_IN_PROCESS example
RETURN s.name, r.step ORDER BY r.step (tools.ts line 78). -/
def cypherToolEdgePropertyReads : List String := ["type", "step"]

/- ===================================================================
   MCP tool definitions, from gitnexus-mcp/src/mcp/tools.ts
   =================================================================== -/

/-- One entry of inputSchema.properties: the JSON-schema property name,
its declared type, and (for array properties) the items element type.
The prose description and default fields do not affect well-formedness
and are elided. -/
structure PropertySpec where
  propName : String
  propType : String
  items : Option String
deriving DecidableEq, Repr

/-- The inputSchema field of a tool definition (tools.ts lines 11-20). -/
structure InputSchema where
  type : String
  properties : List PropertySpec
  required : List String
deriving DecidableEq, Repr

/-- A tool definition (tools.ts lines 8-21), projected to the fields
the well-formedness claim is about. -/
structure ToolDefinition where
  name : String
  inputSchema : InputSchema
deriving DecidableEq, Repr

/-- GITNEXUS_TOOLS, transcribed from tools.ts lines 23-225: the nine
tool definitions context, search, cypher, grep, read, explore,
overview, impact, highlight with their input schemas. -/
def GITNEXUS_TOOLS : List ToolDefinition :=
  [⟨"context", ⟨"object", [], []⟩⟩,
   ⟨"search",
    ⟨"object",
     [⟨"query", "string", none⟩, ⟨"limit", "number", none⟩,
      ⟨"groupByProcess", "boolean", none⟩],
     ["query"]⟩⟩,
   ⟨"cypher", ⟨"object", [⟨"query", "string", none⟩], ["query"]⟩⟩,
   ⟨"grep",
    ⟨"object",
     [⟨"pattern", "string", none⟩, ⟨"caseSensitive", "boolean", none⟩,
      ⟨"maxResults", "number", none⟩],
     ["pattern"]⟩⟩,
   ⟨"read",
    ⟨"object",
     [⟨"filePath", "string", none⟩, ⟨"startLine", "number", none⟩,
      ⟨"endLine", "number", none⟩],
     ["filePath"]⟩⟩,
   ⟨"explore",
    ⟨"object", [⟨"name", "string", none⟩, ⟨"type", "string", none⟩],
     ["name", "type"]⟩⟩,
   ⟨"overview",
    ⟨"object",
     [⟨"showProcesses", "boolean", none⟩, ⟨"showClusters", "boolean", none⟩,
      ⟨"limit", "number", none⟩],
     []⟩⟩,
   ⟨"impact",
    ⟨"object",
     [⟨"target", "string", none⟩, ⟨"direction", "string", none⟩,
      ⟨"maxDepth", "number", none⟩, ⟨"relationTypes", "array", some "string"⟩,
      ⟨"includeTests", "boolean", none⟩, ⟨"minConfidence", "number", none⟩],
     ["target", "direction"]⟩⟩,
   ⟨"highlight",
    ⟨"object",
     [⟨"nodeIds", "array", some "string"⟩, ⟨"color", "string", none⟩],
     ["nodeIds"]⟩⟩]

/- ===================================================================
   Semantic graph data model.
   CodeNode fields follow NODE_SCHEMA; CodeRelation fields follow the
   data model of the specification (from/to/type plus optional step
   and confidence), which the engines below operate on.  The source
   field names from and to are Lean keywords and are rendered fromId
   and toId.  Confidence, a float in the source data model, is
   modelled as a rational.
   =================================================================== -/

structure CodeNode where
  id : String
  label : String
  name : String
  filePath : String
  startLine : Int
  endLine : Int
  content : String
deriving DecidableEq, Repr

structure CodeRelation where
  fromId : String
  toId : String
  type : String
  step : Option Int
  confidence : ℚ
deriving DecidableEq, Repr

/-- The graph store state: all CodeNode rows and all CodeRelation rows. -/
structure GraphState where
  nodes : List CodeNode
  edges : List CodeRelation
deriving DecidableEq, Repr

/-- Invariant of claim C4: at most one CodeNode per id (the declared
primary key of the CodeNode table). -/
def UniqueIds (s : GraphState) : Prop := (s.nodes.map CodeNode.id).Nodup

instance (s : GraphState) : Decidable (UniqueIds s) := by
  unfold UniqueIds; infer_instance

/- ===================================================================
   Impact Engine.
   Modelled from the spec: the computeImpact implementation is not
   among the provided sources (gitnexus-mcp/src/mcp/tools.ts carries
   only the impact tool declaration and its documented contract), so
   the engine is modelled from specification section 4.4: breadth-first
   traversal over relationship edges, depth-bounded by maxDepth
   (default 3), pruning any path whose accumulated confidence (product
   of per-edge confidences) falls below minConfidence (default 0.7);
   each reached node is tagged with its shortest-path depth; depth 1 is
   rated "will break", depth 2 "likely affected", depth 3 and beyond
   "may need testing"; an unknown target yields an empty, non-error
   result with an explicit target-not-found marker.
   =================================================================== -/

inductive Direction where
  | upstream
  | downstream
deriving DecidableEq, Repr

/-- Default maxDepth of the impact query (tools.ts line 201, spec 4.4). -/
def defaultMaxDepth : Nat := 3

/-- Default minConfidence of the impact query (tools.ts line 204,
spec 4.4). -/
def defaultMinConfidence : ℚ := 7/10

/-- Default relation types traversed by the impact query
(tools.ts line 189). -/
def defaultRelationTypes : List String :=
  ["CALLS", "IMPORTS", "EXTENDS", "IMPLEMENTS"]

/-- Modelled from the spec: the edges adjacent to node n in the
traversal direction, restricted to the requested relation types;
upstream follows edges backward (what depends on n), downstream
forward.  Each neighbor comes with its per-edge confidence. -/
def neighborsOf (edges : List CodeRelation) (relationTypes : List String)
    (dir : Direction) (n : String) : List (String × ℚ) :=
  match dir with
  | .downstream =>
      (edges.filter (fun e => e.fromId == n && relationTypes.contains e.type)).map
        (fun e => (e.toId, e.confidence))
  | .upstream =>
      (edges.filter (fun e => e.toId == n && relationTypes.contains e.type)).map
        (fun e => (e.fromId, e.confidence))

/-- Modelled from the spec: one breadth-first expansion step.  Every
(node, accumulated confidence) pair of the frontier is extended along
each admissible edge, and any extension whose accumulated confidence
falls below minConfidence is pruned. -/
def expandFrontier (edges : List CodeRelation) (relationTypes : List String)
    (dir : Direction) (minConfidence : ℚ)
    (frontier : List (String × ℚ)) : List (String × ℚ) :=
  frontier.flatMap (fun p =>
    (neighborsOf edges relationTypes dir p.1).filterMap (fun q =>
      if minConfidence ≤ p.2 * q.2 then some (q.1, p.2 * q.2) else none))

/-- Modelled from the spec: the breadth-first frontier after k steps
from the target, with accumulated path confidences; level 0 is the
target itself with confidence 1. -/
def frontierAt (edges : List CodeRelation) (relationTypes : List String)
    (dir : Direction) (minConfidence : ℚ) (target : String) :
    Nat → List (String × ℚ)
  | 0 => [(target, 1)]
  | k + 1 =>
      expandFrontier edges relationTypes dir minConfidence
        (frontierAt edges relationTypes dir minConfidence target k)

/-- Modelled from the spec: merge one breadth-first level into the
accumulated (node, first-reached depth) list; a node already present
keeps its earlier (smaller) depth. -/
def addLevel (acc : List (String × Nat)) (d : Nat)
    (lvl : List (String × ℚ)) : List (String × Nat) :=
  lvl.foldl
    (fun a p => if a.any (fun q => q.1 == p.1) then a else a ++ [(p.1, d)])
    acc

/-- Modelled from the spec: all nodes reached within maxDepth steps on
a confidence-admissible path, each tagged with the minimum depth at
which it was reached. -/
def reachedNodes (edges : List CodeRelation) (relationTypes : List String)
    (dir : Direction) (minConfidence : ℚ) (target : String)
    (maxDepth : Nat) : List (String × Nat) :=
  (List.range maxDepth).foldl
    (fun acc k =>
      addLevel acc (k + 1)
        (frontierAt edges relationTypes dir minConfidence target (k + 1)))
    []

/-- Modelled from the spec: the fixed depth-to-risk mapping of
section 4.4 (depth 1 = will break, depth 2 = likely affected,
depth 3 and beyond = may need testing). -/
def riskForDepth (d : Nat) : String :=
  if d ≤ 1 then "will break"
  else if d = 2 then "likely affected"
  else "may need testing"

/-- One row of an impact result: reached node id, shortest-path depth,
risk classification. -/
structure ImpactEntry where
  nodeId : String
  depth : Nat
  risk : String
deriving DecidableEq, Repr

/-- An impact result: the explicit target-found marker and the reached
rows.  Returning this structure (never an exception) models the
non-throwing contract of the impact query. -/
structure ImpactResult where
  targetFound : Bool
  results : List ImpactEntry
deriving DecidableEq, Repr

/-- Modelled from the spec: the impact query of section 4.4.  The
target symbol is looked up by name; if absent the query returns the
empty result with targetFound = false instead of an error. -/
def computeImpact (s : GraphState) (target : String) (dir : Direction)
    (maxDepth : Nat) (relationTypes : List String)
    (minConfidence : ℚ) : ImpactResult :=
  match s.nodes.find? (fun n => n.name == target) with
  | none => ⟨false, []⟩
  | some tn =>
      ⟨true,
       (reachedNodes s.edges relationTypes dir minConfidence tn.id
           maxDepth).map
         (fun p => ⟨p.1, p.2, riskForDepth p.2⟩)⟩

/-- A traversal path witness: ReachPath edges relationTypes dir a b k c
holds when there is a directed path of k admissible edges from a to b
whose per-edge confidences multiply to c. -/
inductive ReachPath (edges : List CodeRelation) (relationTypes : List String)
    (dir : Direction) (a : String) : String → Nat → ℚ → Prop where
  | refl : ReachPath edges relationTypes dir a a 0 1
  | step {b : String} {k : Nat} {c : ℚ} {m : String} {ec : ℚ} :
      ReachPath edges relationTypes dir a b k c →
      (m, ec) ∈ neighborsOf edges relationTypes dir b →
      ReachPath edges relationTypes dir a m (k + 1) (c * ec)

/- ===================================================================
   Example graph for witnesses: calculateTotal is called only by
   InvoiceGenerator.generate, which is called by render (the scenario
   of spec section 8).
   =================================================================== -/

def egCalculateTotal : CodeNode :=
  ⟨"src/invoice.ts:calculateTotal:10", "Function", "calculateTotal",
   "src/invoice.ts", 10, 20, ""⟩

def egGenerate : CodeNode :=
  ⟨"src/invoice.ts:generate:30", "Method", "generate",
   "src/invoice.ts", 30, 40, ""⟩

def egRender : CodeNode :=
  ⟨"src/app.ts:render:5", "Function", "render", "src/app.ts", 5, 9, ""⟩

def egGraph : GraphState :=
  ⟨[egCalculateTotal, egGenerate, egRender],
   [⟨egGenerate.id, egCalculateTotal.id, "CALLS", none, 1⟩,
    ⟨egRender.id, egGenerate.id, "CALLS", none, 1⟩]⟩

/- ===================================================================
   Ingestion Engine.
   Modelled from the spec: no ingestion implementation is among the
   provided sources, so the engine is modelled from specification
   sections 4.1 and 6: the parser oracle returns typed symbols and raw
   references for one file; ingest computes the previous node set for
   the filePath, upserts the nodes of the new parse, deletes nodes
   absent from the new parse (cascading their edges), and upserts the
   edges declared by the new parse, resolving references by name
   lookup against the graph, recording unresolved targets with
   confidence below 1 instead of dropping them.
   =================================================================== -/

/-- Parser output symbol (spec section 6). -/
structure ParsedSymbol where
  name : String
  kind : String
  startLine : Int
  endLine : Int
deriving DecidableEq, Repr

/-- Parser output reference (spec section 6). -/
structure ParsedReference where
  fromSymbol : String
  toSymbolName : String
  kind : String
deriving DecidableEq, Repr

/-- Parser oracle result (spec section 6). -/
structure ParseOutput where
  symbols : List ParsedSymbol
  references : List ParsedReference
deriving DecidableEq, Repr

/-- Modelled from the spec: the stable node id, derived from
(filePath, name, startLine) so that re-ingesting unchanged code
reproduces the same id. -/
def nodeId (filePath name : String) (startLine : Int) : String :=
  filePath ++ ":" ++ name ++ ":" ++ toString startLine

/-- The File node of an ingested file. -/
def fileNodeOf (f : String) : CodeNode :=
  ⟨nodeId f f 0, "File", f, f, 0, 0, ""⟩

/-- The CodeNode of one parsed symbol of file f. -/
def symbolNode (f : String) (sym : ParsedSymbol) : CodeNode :=
  ⟨nodeId f sym.name sym.startLine, sym.kind, sym.name, f,
   sym.startLine, sym.endLine, ""⟩

/-- All CodeNodes reported by one parse of file f: the File node and
one node per symbol. -/
def parsedNodes (f : String) (out : ParseOutput) : List CodeNode :=
  fileNodeOf f :: out.symbols.map (symbolNode f)

/-- One row per id (first occurrence wins), enforcing the primary key
of the CodeNode table inside a single upsert batch. -/
def dedupById : List CodeNode → List CodeNode
  | [] => []
  | n :: rest => n :: dedupById (rest.filter (fun m => !(m.id == n.id)))
termination_by l => l.length
decreasing_by
  simp only [List.length_cons]
  exact Nat.lt_succ_of_le (List.length_filter_le _ _)

/-- Modelled from the spec: name-and-scope lookup of a reference
target against the graph; a resolved target has confidence 1, an
unresolved target is recorded against a placeholder id with
confidence below 1 rather than dropped. -/
def resolveRef (base : List CodeNode) (symName : String) : String × ℚ :=
  match base.find? (fun n => n.name == symName) with
  | some n => (n.id, 1)
  | none => (symName, 1/2)

/-- Modelled from the spec: the edges declared by one parse: CONTAINS
from the File node to each symbol, plus the parsed references
(CALLS, IMPORTS, ...) resolved against the updated graph. -/
def edgesOfParse (f : String) (out : ParseOutput) (parsed : List CodeNode)
    (base : List CodeNode) : List CodeRelation :=
  let fileNd := fileNodeOf f
  ((parsed.filter (fun n => !(n.id == fileNd.id))).map
    (fun n => ⟨fileNd.id, n.id, "CONTAINS", none, 1⟩)) ++
  out.references.filterMap (fun r =>
    match parsed.find? (fun n => n.name == r.fromSymbol) with
    | none => none
    | some src =>
        some ⟨src.id, (resolveRef base r.toSymbolName).1, r.kind, none,
              (resolveRef base r.toSymbolName).2⟩)

/-- Replace the node set of file f: keep nodes of other files whose id
is not taken over by the new parse, then append the nodes of the new parse
(upsert by primary key). -/
def replaceFileNodes (nodes : List CodeNode) (f : String)
    (parsed : List CodeNode) : List CodeNode :=
  nodes.filter
    (fun n => decide (¬ n.filePath = f ∧ n.id ∉ parsed.map CodeNode.id)) ++
  parsed

/-- The nodes of file f deleted by the new parse: previously associated
with f and absent from the new parse. -/
def removedByParse (nodes : List CodeNode) (f : String)
    (parsed : List CodeNode) : List CodeNode :=
  nodes.filter
    (fun n => decide (n.filePath = f ∧ n.id ∉ parsed.map CodeNode.id))

/-- Cascade deletion: drop every edge touching a removed node. -/
def cascadeEdges (edges : List CodeRelation) (removedIds : List String) :
    List CodeRelation :=
  edges.filter
    (fun e => decide (e.fromId ∉ removedIds ∧ e.toId ∉ removedIds))

/-- Upsert edges: append only those new edges not already stored. -/
def upsertEdges (old new : List CodeRelation) : List CodeRelation :=
  old ++ new.filter (fun e => decide (e ∉ old))

/-- The delta reported by one ingest: changed node rows, removed node
ids, added edges, removed edges. -/
structure Delta where
  upsertedNodes : List CodeNode
  removedNodeIds : List String
  addedEdges : List CodeRelation
  removedEdges : List CodeRelation
deriving DecidableEq, Repr

def Delta.isEmpty (d : Delta) : Bool :=
  d.upsertedNodes.isEmpty && d.removedNodeIds.isEmpty &&
  d.addedEdges.isEmpty && d.removedEdges.isEmpty

/-- Modelled from the spec: ingest(file, content) of section 4.1.
The parser oracle is a parameter; the new node set replaces the old
node set of the file, deleted nodes cascade their edges, and the
edges of the new parse are upserted with reference resolution against
the updated graph. -/
def ingest (parse : String → String → ParseOutput) (s : GraphState)
    (f c : String) : GraphState × Delta :=
  let out := parse f c
  let parsed := dedupById (parsedNodes f out)
  let removedIds := (removedByParse s.nodes f parsed).map CodeNode.id
  let nodes' := replaceFileNodes s.nodes f parsed
  let newEdges := edgesOfParse f out parsed nodes'
  (⟨nodes', upsertEdges (cascadeEdges s.edges removedIds) newEdges⟩,
   ⟨parsed.filter (fun n => decide (n ∉ s.nodes)),
    removedIds,
    newEdges.filter (fun e => decide (e ∉ s.edges)),
    s.edges.filter
      (fun e => decide (e.fromId ∈ removedIds ∨ e.toId ∈ removedIds))⟩)

/- ===================================================================
   Derivation pass and Sync Engine.
   Modelled from the spec: cluster detection and process tracing write
   with full-replace semantics (sections 4.2 and 4.3); the sync engine
   serializes all CodeNode/CodeRelation rows with the content field
   excluded into an ordered record stream bound to a commit, and
   hydration bulk-loads a manifest into a fresh store (section 4.5).
   =================================================================== -/

/-- Modelled from the spec: one derivation pass with full-replace
semantics: delete all existing Cluster and Process nodes and all
MEMBER_OF and STEP_IN_PROCESS edges, then write the freshly derived
nodes (deduplicated by primary key) and edges. -/
def runDerivationPass (s : GraphState) (derived : List CodeNode)
    (derivedEdges : List CodeRelation) : GraphState :=
  let base := s.nodes.filter
    (fun n => decide (¬ n.label = "Cluster" ∧ ¬ n.label = "Process"))
  let newDerived := dedupById derived
  ⟨base.filter
      (fun n => decide (n.id ∉ newDerived.map CodeNode.id)) ++ newDerived,
   s.edges.filter
      (fun e =>
        decide (¬ e.type = "MEMBER_OF" ∧ ¬ e.type = "STEP_IN_PROCESS")) ++
   derivedEdges⟩

/-- The manifest: a header (bound commit id, schema version) and the
ordered node and edge records. -/
structure Manifest where
  commitId : String
  schemaVersion : Nat
  nodeRecords : List CodeNode
  edgeRecords : List CodeRelation
deriving DecidableEq, Repr

/-- A node record with the content field excluded (spec section 4.5:
only semantic and structural fields are serialized). -/
def stripContent (n : CodeNode) : CodeNode :=
  ⟨n.id, n.label, n.name, n.filePath, n.startLine, n.endLine, ""⟩

/-- The deterministic sort key of an edge record. -/
def edgeSortKey (e : CodeRelation) : String :=
  e.fromId ++ "|" ++ e.toId ++ "|" ++ e.type

instance : DecidableRel (fun a b : CodeNode => a.id ≤ b.id) :=
  fun a b => inferInstanceAs (Decidable (a.id ≤ b.id))

instance : DecidableRel
    (fun a b : CodeRelation => edgeSortKey a ≤ edgeSortKey b) :=
  fun a b => inferInstanceAs (Decidable (edgeSortKey a ≤ edgeSortKey b))

/-- Modelled from the spec: export serializes all CodeNode rows
(content excluded) and all CodeRelation rows, deterministically
sorted, bound to the commit being finalized. -/
def exportManifest (commit : String) (s : GraphState) : Manifest :=
  ⟨commit, 1,
   List.insertionSort (fun a b => a.id ≤ b.id) (s.nodes.map stripContent),
   List.insertionSort (fun a b => edgeSortKey a ≤ edgeSortKey b) s.edges⟩

/-- Modelled from the spec: hydration bulk-loads the manifest records
into a fresh, empty store, skipping the ingestion path. -/
def hydrate (m : Manifest) : GraphState :=
  ⟨m.nodeRecords, m.edgeRecords⟩

/- ===================================================================
   Code references panel, from
   src/src/components/CodeReferencesPanel.tsx lines 93-121
   (refsWithSnippets).
   =================================================================== -/

/-- One code reference shown in the panel (fields used by
refsWithSnippets and the surrounding rendering). -/
structure CodeReference where
  id : String
  filePath : String
  name : Option String
  label : Option String
  nodeId : Option String
  startLine : Option Int
  endLine : Option Int
deriving DecidableEq, Repr

/-- The record refsWithSnippets builds per reference.  The source
field named end is a Lean keyword and is rendered endIdx. -/
structure SnippetRecord where
  ref : CodeReference
  content : Option String
  start : Int
  endIdx : Int
  highlightStart : Int
  highlightEnd : Int
  totalLines : Int
deriving DecidableEq, Repr

/-- Splitting on newline, the semantics of the source expression
content.split(the newline character): the result is never empty. -/
def splitLinesAux : List Char → List Char → List String
  | [], acc => [String.mk acc.reverse]
  | ch :: rest, acc =>
      if ch = '\n' then String.mk acc.reverse :: splitLinesAux rest []
      else splitLinesAux rest (ch :: acc)

def splitLines (content : String) : List String :=
  splitLinesAux content.toList []

/-- ECMAScript Array.prototype.slice with integer arguments: a
negative index counts from the end of the array and both indices are
clamped to the array bounds, so the slice never reads outside the
array. -/
def jsSlice {α : Type} (l : List α) (s e : Int) : List α :=
  let n : Int := l.length
  let sc := if s < 0 then max 0 (n + s) else min s n
  let ec := if e < 0 then max 0 (n + e) else min e n
  (l.drop sc.toNat).take (ec.toNat - sc.toNat)

/-- fileContents.get: lookup of the loaded content of a file. -/
def lookupContent (fileContents : List (String × String)) (p : String) :
    Option String :=
  (fileContents.find? (fun q => q.1 == p)).map Prod.snd

/-- refsWithSnippets (CodeReferencesPanel.tsx lines 93-121): for each
reference, when the file content is loaded (a missing entry and the
empty string are both falsy in the source) compute the snippet window
start = max(0, startLine - 3), end = min(totalLines - 1,
endLine + 20), slice lines[start .. end], and clamp the highlight
bounds at zero; otherwise return a null-content record with zeroed
bounds. -/
def refsWithSnippets (fileContents : List (String × String))
    (aiReferences : List CodeReference) : List SnippetRecord :=
  aiReferences.map (fun ref =>
    match lookupContent fileContents ref.filePath with
    | none => ⟨ref, none, 0, 0, 0, 0, 0⟩
    | some content =>
        if content = "" then ⟨ref, none, 0, 0, 0, 0, 0⟩
        else
          let lines := splitLines content
          let totalLines : Int := lines.length
          let startLine := ref.startLine.getD 0
          let endLine := ref.endLine.getD startLine
          let contextBefore : Int := 3
          let contextAfter : Int := 20
          let start := max 0 (startLine - contextBefore)
          let endI := min (totalLines - 1) (endLine + contextAfter)
          ⟨ref,
           some (String.intercalate "\n" (jsSlice lines start (endI + 1))),
           start, endI, max 0 (startLine - start), max 0 (endLine - start),
           totalLines⟩)

/- ===================================================================
   Impact engine lemmas
   =================================================================== -/

/-- Membership in a breadth-first frontier yields a path witness. -/
theorem mem_frontierAt_reachPath (edges : List CodeRelation)
    (relationTypes : List String) (dir : Direction) (mc : ℚ) (t : String) :
    ∀ (k : Nat) (n : String) (c : ℚ),
      (n, c) ∈ frontierAt edges relationTypes dir mc t k →
      ReachPath edges relationTypes dir t n k c := by
  intro k
  induction k with
  | zero =>
      intro n c h
      simp only [frontierAt, List.mem_singleton, Prod.mk.injEq] at h
      obtain ⟨rfl, rfl⟩ := h
      exact ReachPath.refl
  | succ k ih =>
      intro n c h
      simp only [frontierAt, expandFrontier, List.mem_flatMap,
        List.mem_filterMap] at h
      obtain ⟨p, hp, q, hq, hg⟩ := h
      by_cases hle : mc ≤ p.2 * q.2
      · simp only [hle, if_pos, Option.some.injEq, Prod.mk.injEq] at hg
        obtain ⟨rfl, rfl⟩ := hg
        exact ReachPath.step (ih p.1 p.2 (by simpa using hp)) hq
      · simp [hle] at hg

/-- Every frontier entry at depth at least one has accumulated
confidence at least minConfidence: this is the pruning step. -/
theorem mem_frontierAt_conf (edges : List CodeRelation)
    (relationTypes : List String) (dir : Direction) (mc : ℚ) (t : String)
    (k : Nat) (n : String) (c : ℚ)
    (h : (n, c) ∈ frontierAt edges relationTypes dir mc t (k + 1)) :
    mc ≤ c := by
  simp only [frontierAt, expandFrontier, List.mem_flatMap,
    List.mem_filterMap] at h
  obtain ⟨p, hp, q, hq, hg⟩ := h
  by_cases hle : mc ≤ p.2 * q.2
  · simp only [hle, if_pos, Option.some.injEq, Prod.mk.injEq] at hg
    obtain ⟨rfl, rfl⟩ := hg
    exact hle
  · simp [hle] at hg

/-- addLevel only appends: the accumulator is a sublist of the result. -/
theorem addLevel_sublist (d : Nat) :
    ∀ (lvl : List (String × ℚ)) (acc : List (String × Nat)),
      acc.Sublist (addLevel acc d lvl) := by
  intro lvl
  induction lvl with
  | nil => intro acc; simp [addLevel]
  | cons p rest ih =>
      intro acc
      simp only [addLevel, List.foldl_cons]
      by_cases hmem : acc.any (fun q => q.1 == p.1)
      · simpa [addLevel, hmem] using ih acc
      · exact List.Sublist.trans (List.sublist_append_left acc [(p.1, d)])
          (by simpa [addLevel, hmem] using ih (acc ++ [(p.1, d)]))

/-- Where addLevel entries come from: the accumulator, or the level
just merged (tagged with the depth of that level). -/
theorem mem_addLevel (d : Nat) :
    ∀ (lvl : List (String × ℚ)) (acc : List (String × Nat))
      (x : String × Nat), x ∈ addLevel acc d lvl →
      x ∈ acc ∨ (x.2 = d ∧ ∃ c, (x.1, c) ∈ lvl) := by
  intro lvl
  induction lvl with
  | nil => intro acc x h; exact Or.inl (by simpa [addLevel] using h)
  | cons p rest ih =>
      intro acc x h
      simp only [addLevel, List.foldl_cons] at h
      by_cases hmem : acc.any (fun q => q.1 == p.1)
      · rcases ih acc x (by simpa [addLevel, hmem] using h) with h' | ⟨hd, c, hc⟩
        · exact Or.inl h'
        · exact Or.inr ⟨hd, c, List.mem_cons_of_mem _ hc⟩
      · rcases ih (acc ++ [(p.1, d)]) x (by simpa [addLevel, hmem] using h)
          with h' | ⟨hd, c, hc⟩
        · rcases List.mem_append.mp h' with h'' | h''
          · exact Or.inl h''
          · refine Or.inr ⟨?_, p.2, ?_⟩
            · simpa using congrArg Prod.snd (List.mem_singleton.mp h'')
            · have hx1 : x.1 = p.1 := by
                simpa using congrArg Prod.fst (List.mem_singleton.mp h'')
              simp [hx1]
        · exact Or.inr ⟨hd, c, List.mem_cons_of_mem _ hc⟩

/-- Every node of the merged level is represented after addLevel:
either some entry for it was already in the accumulator, or it is
added with the level depth. -/
theorem addLevel_covers (d : Nat) :
    ∀ (lvl : List (String × ℚ)) (acc : List (String × Nat))
      (m : String) (c : ℚ), (m, c) ∈ lvl →
      (∃ d', (m, d') ∈ acc) ∨ (m, d) ∈ addLevel acc d lvl := by
  intro lvl
  induction lvl with
  | nil => intro acc m c h; simp at h
  | cons p rest ih =>
      intro acc m c h
      rcases List.mem_cons.mp h with h' | h'
      · by_cases hmem : acc.any (fun q => q.1 == p.1)
        · obtain ⟨q, hq, hq1⟩ := List.any_eq_true.mp hmem
          have hqp : q.1 = p.1 := by simpa using hq1
          refine Or.inl ⟨q.2, ?_⟩
          have hm : m = q.1 := by
            have h1 : m = p.1 := by simpa using congrArg Prod.fst h'
            rw [h1, hqp]
          rw [hm]
          exact hq
        · have hm : m = p.1 := by
            have := congrArg Prod.fst h'; simpa using this
          refine Or.inr ?_
          have hmem2 : (m, d) ∈ acc ++ [(p.1, d)] := by simp [hm]
          have hsub := addLevel_sublist d rest (acc ++ [(p.1, d)])
          have : (m, d) ∈ addLevel (acc ++ [(p.1, d)]) d rest :=
            hsub.subset hmem2
          simpa [addLevel, hmem] using this
      · by_cases hmem : acc.any (fun q => q.1 == p.1)
        · rcases ih acc m c h' with ⟨d', hd'⟩ | hdone
          · exact Or.inl ⟨d', hd'⟩
          · exact Or.inr (by simpa [addLevel, hmem] using hdone)
        · rcases ih (acc ++ [(p.1, d)]) m c h' with ⟨d', hd'⟩ | hdone
          · rcases List.mem_append.mp hd' with h'' | h''
            · exact Or.inl ⟨d', h''⟩
            · have h1 : m = p.1 := by
                simpa using congrArg Prod.fst (List.mem_singleton.mp h'')
              have h2 : d' = d := by
                simpa using congrArg Prod.snd (List.mem_singleton.mp h'')
              refine Or.inr ?_
              have hmem2 : (m, d) ∈ acc ++ [(p.1, d)] := by simp [h1]
              have : (m, d) ∈ addLevel (acc ++ [(p.1, d)]) d rest :=
                (addLevel_sublist d rest _).subset hmem2
              simpa [addLevel, hmem] using this
          · exact Or.inr (by simpa [addLevel, hmem] using hdone)

/-- addLevel preserves distinctness of node keys. -/
theorem addLevel_keys_nodup (d : Nat) :
    ∀ (lvl : List (String × ℚ)) (acc : List (String × Nat)),
      (acc.map Prod.fst).Nodup →
      ((addLevel acc d lvl).map Prod.fst).Nodup := by
  intro lvl
  induction lvl with
  | nil => intro acc h; simpa [addLevel] using h
  | cons p rest ih =>
      intro acc h
      by_cases hmem : acc.any (fun q => q.1 == p.1)
      · simpa [addLevel, hmem] using ih acc h
      · have hnotin : p.1 ∉ acc.map Prod.fst := by
          intro hcontra
          obtain ⟨q, hq, hq1⟩ := List.mem_map.mp hcontra
          exact hmem (List.any_eq_true.mpr ⟨q, hq, by simp [hq1]⟩)
        have hnew : ((acc ++ [(p.1, d)]).map Prod.fst).Nodup := by
          rw [List.map_append]
          refine List.Nodup.append h (by simp) ?_
          simp only [List.map_cons, List.map_nil]
          intro a ha hb
          have hab : a = p.1 := by simpa using hb
          exact hnotin (hab ▸ ha)
        simpa [addLevel, hmem] using ih (acc ++ [(p.1, d)]) hnew

/-- In a list of pairs with distinct keys, the value of a key is
unique. -/
theorem key_functional {α β : Type} :
    ∀ (l : List (α × β)), (l.map Prod.fst).Nodup →
      ∀ (n : α) (d₁ d₂ : β), (n, d₁) ∈ l → (n, d₂) ∈ l → d₁ = d₂ := by
  intro l
  induction l with
  | nil => intro _ n d₁ d₂ h; simp at h
  | cons q rest ih =>
      intro hnd n d₁ d₂ h1 h2
      simp only [List.map_cons, List.nodup_cons] at hnd
      rcases List.mem_cons.mp h1 with e1 | e1 <;>
        rcases List.mem_cons.mp h2 with e2 | e2
      · have := e1.trans e2.symm
        simpa using congrArg Prod.snd this
      · exfalso
        apply hnd.1
        have hq : q.1 = n := by simpa using (congrArg Prod.fst e1).symm
        exact hq ▸ List.mem_map.mpr ⟨(n, d₂), e2, rfl⟩
      · exfalso
        apply hnd.1
        have hq : q.1 = n := by simpa using (congrArg Prod.fst e2).symm
        exact hq ▸ List.mem_map.mpr ⟨(n, d₁), e1, rfl⟩
      · exact ih hnd.2 n d₁ d₂ e1 e2

/-- Unfolding reachedNodes by one depth step. -/
theorem reachedNodes_succ (edges : List CodeRelation)
    (relationTypes : List String) (dir : Direction) (mc : ℚ) (t : String)
    (maxDepth : Nat) :
    reachedNodes edges relationTypes dir mc t (maxDepth + 1) =
      addLevel (reachedNodes edges relationTypes dir mc t maxDepth)
        (maxDepth + 1)
        (frontierAt edges relationTypes dir mc t (maxDepth + 1)) := by
  unfold reachedNodes
  rw [List.range_succ, List.foldl_append]
  simp

/-- Every reached entry has depth between 1 and maxDepth and is backed
by a frontier membership at exactly its recorded depth. -/
theorem mem_reachedNodes_bound (edges : List CodeRelation)
    (relationTypes : List String) (dir : Direction) (mc : ℚ) (t : String) :
    ∀ (maxDepth : Nat) (x : String × Nat),
      x ∈ reachedNodes edges relationTypes dir mc t maxDepth →
      1 ≤ x.2 ∧ x.2 ≤ maxDepth ∧
        ∃ c, (x.1, c) ∈ frontierAt edges relationTypes dir mc t x.2 := by
  intro maxDepth
  induction maxDepth with
  | zero => intro x h; simp [reachedNodes] at h
  | succ maxDepth ih =>
      intro x h
      rw [reachedNodes_succ] at h
      rcases mem_addLevel _ _ _ _ h with h' | ⟨hd, c, hc⟩
      · obtain ⟨h1, h2, h3⟩ := ih x h'
        exact ⟨h1, Nat.le_succ_of_le h2, h3⟩
      · exact ⟨by omega, by omega, c, hd ▸ hc⟩

/-- The reached list never records the same node twice. -/
theorem reachedNodes_keys_nodup (edges : List CodeRelation)
    (relationTypes : List String) (dir : Direction) (mc : ℚ) (t : String) :
    ∀ (maxDepth : Nat),
      ((reachedNodes edges relationTypes dir mc t maxDepth).map
        Prod.fst).Nodup := by
  intro maxDepth
  induction maxDepth with
  | zero => simp [reachedNodes]
  | succ maxDepth ih =>
      rw [reachedNodes_succ]
      exact addLevel_keys_nodup _ _ _ ih

/-- Raising the depth bound only appends to the reached list. -/
theorem reachedNodes_mono (edges : List CodeRelation)
    (relationTypes : List String) (dir : Direction) (mc : ℚ) (t : String)
    (d d' : Nat) (h : d ≤ d') :
    (reachedNodes edges relationTypes dir mc t d).Sublist
      (reachedNodes edges relationTypes dir mc t d') := by
  induction d' with
  | zero =>
      have : d = 0 := Nat.le_zero.mp h
      subst this
      exact List.Sublist.refl _
  | succ d' ih =>
      rcases Nat.lt_or_ge d (d' + 1) with hlt | hge
      · have hle : d ≤ d' := Nat.lt_succ_iff.mp hlt
        refine (ih hle).trans ?_
        rw [reachedNodes_succ]
        exact addLevel_sublist _ _ _
      · have : d = d' + 1 := Nat.le_antisymm h hge
        subst this
        exact List.Sublist.refl _

/-- Every node on an admissible frontier within the depth bound is
recorded in the reached list, at a depth no larger than that frontier
level. -/
theorem frontier_mem_reachedNodes (edges : List CodeRelation)
    (relationTypes : List String) (dir : Direction) (mc : ℚ) (t : String) :
    ∀ (maxDepth k : Nat) (m : String) (c : ℚ), 1 ≤ k → k ≤ maxDepth →
      (m, c) ∈ frontierAt edges relationTypes dir mc t k →
      ∃ d', d' ≤ k ∧
        (m, d') ∈ reachedNodes edges relationTypes dir mc t maxDepth := by
  intro maxDepth
  induction maxDepth with
  | zero => intro k m c h1 h2 _; omega
  | succ maxDepth ih =>
      intro k m c h1 h2 hmem
      rcases Nat.lt_or_ge k (maxDepth + 1) with hlt | hge
      · obtain ⟨d', hd1, hd2⟩ := ih k m c h1 (Nat.lt_succ_iff.mp hlt) hmem
        refine ⟨d', hd1, ?_⟩
        exact (reachedNodes_mono edges relationTypes dir mc t maxDepth
          (maxDepth + 1) (Nat.le_succ _)).subset hd2
      · have hk : k = maxDepth + 1 := Nat.le_antisymm h2 hge
        subst hk
        rcases addLevel_covers (maxDepth + 1) _
            (reachedNodes edges relationTypes dir mc t maxDepth) m c hmem
          with ⟨d', hd'⟩ | hdone
        · have hb := mem_reachedNodes_bound edges relationTypes dir mc t
            maxDepth (m, d') hd'
          refine ⟨d', by omega, ?_⟩
          exact (reachedNodes_mono edges relationTypes dir mc t maxDepth
            (maxDepth + 1) (Nat.le_succ _)).subset hd'
        · exact ⟨maxDepth + 1, le_refl _, by rw [reachedNodes_succ]; exact hdone⟩

/-- The recorded depth of a reached node is minimal: no admissible
frontier reaches the node strictly earlier. -/
theorem reachedNodes_min_depth (edges : List CodeRelation)
    (relationTypes : List String) (dir : Direction) (mc : ℚ) (t : String)
    (maxDepth : Nat) (n : String) (d : Nat) (k : Nat) (c : ℚ)
    (hmem : (n, d) ∈ reachedNodes edges relationTypes dir mc t maxDepth)
    (hk : 1 ≤ k)
    (hfr : (n, c) ∈ frontierAt edges relationTypes dir mc t k) :
    d ≤ k := by
  rcases Nat.lt_or_ge k maxDepth with hlt | hge
  · obtain ⟨d', hd1, hd2⟩ := frontier_mem_reachedNodes edges relationTypes
      dir mc t maxDepth k n c hk (Nat.le_of_lt hlt) hfr
    have := key_functional _ (reachedNodes_keys_nodup edges relationTypes
      dir mc t maxDepth) n d d' hmem hd2
    omega
  · have hb := mem_reachedNodes_bound edges relationTypes dir mc t
      maxDepth (n, d) hmem
    omega

/- ===================================================================
   C1 and C9
   =================================================================== -/

/-- C1: the claim says the CodeRelation edge table can optionally carry
a step integer and a confidence float.  The declared EDGE_SCHEMA has
exactly one property column, type: neither step nor confidence is
declared, even though the cypher tool documentation of this repository
reads r.step on CodeRelation edges.  This theorem evaluates the schema
at the divergence. -/
theorem c1_edge_schema_lacks_step_and_confidence :
    edgeSchemaColumns.map ColumnDecl.colName = ["type"] ∧
    "step" ∉ edgeSchemaColumns.map ColumnDecl.colName ∧
    "confidence" ∉ edgeSchemaColumns.map ColumnDecl.colName ∧
    "step" ∈ cypherToolEdgePropertyReads ∧
    specEdgeOptionalAttributes.all
      (fun a => !(edgeSchemaColumns.map ColumnDecl.colName).contains a.colName)
      = true := by
  decide

/-- C9: every tool definition in GITNEXUS_TOOLS is well-formed: its
inputSchema.type is the string object, and every name in
inputSchema.required appears as a key of inputSchema.properties. -/
theorem c9_tools_well_formed (t : ToolDefinition) (h : t ∈ GITNEXUS_TOOLS) :
    t.inputSchema.type = "object" ∧
    ∀ r ∈ t.inputSchema.required,
      r ∈ t.inputSchema.properties.map PropertySpec.propName := by
  fin_cases h <;> refine ⟨rfl, ?_⟩ <;> decide

/- ===================================================================
   C2, C3, C5, C8
   =================================================================== -/

/-- C2: every node in an impact result was reached by a path whose
accumulated confidence, the product of the per-edge confidences, is at
least minConfidence: no returned result has accumulated path
confidence below the configured minConfidence. -/
theorem c2_confidence_pruning (s : GraphState) (target : String)
    (dir : Direction) (maxDepth : Nat) (relationTypes : List String)
    (minConfidence : ℚ) (e : ImpactEntry)
    (h : e ∈ (computeImpact s target dir maxDepth relationTypes
        minConfidence).results) :
    ∃ tn c, s.nodes.find? (fun n => n.name == target) = some tn ∧
      minConfidence ≤ c ∧
      ReachPath s.edges relationTypes dir tn.id e.nodeId e.depth c := by
  unfold computeImpact at h
  cases hfind : s.nodes.find? (fun n => n.name == target) with
  | none => rw [hfind] at h; simp at h
  | some tn =>
      rw [hfind] at h
      simp only [List.mem_map] at h
      obtain ⟨p, hp, rfl⟩ := h
      obtain ⟨h1, h2, c, hc⟩ :=
        mem_reachedNodes_bound s.edges relationTypes dir minConfidence
          tn.id maxDepth p hp
      obtain ⟨j, hj⟩ : ∃ j, p.2 = j + 1 := ⟨p.2 - 1, by omega⟩
      refine ⟨tn, c, rfl, ?_, ?_⟩
      · exact mem_frontierAt_conf s.edges relationTypes dir minConfidence
          tn.id j p.1 c (hj ▸ hc)
      · exact mem_frontierAt_reachPath s.edges relationTypes dir
          minConfidence tn.id p.2 p.1 c hc

/-- C2 witness: in the example graph, generate appears in the upstream
impact of calculateTotal, and the theorem yields its admissible path. -/
theorem c2_confidence_pruning_witness :
    ((⟨"src/invoice.ts:generate:30", 1, "will break"⟩ : ImpactEntry) ∈
      (computeImpact egGraph "calculateTotal" Direction.upstream 3
        defaultRelationTypes (7/10)).results) ∧
    ∃ tn c,
      egGraph.nodes.find? (fun n => n.name == "calculateTotal") = some tn ∧
      (7 : ℚ)/10 ≤ c ∧
      ReachPath egGraph.edges defaultRelationTypes Direction.upstream
        tn.id "src/invoice.ts:generate:30" 1 c :=
  ⟨by
     norm_num [computeImpact, egGraph, egCalculateTotal, egGenerate,
     egRender, reachedNodes, addLevel, frontierAt, expandFrontier,
     neighborsOf, riskForDepth, defaultRelationTypes, List.range_succ,
     List.range_zero, List.filter, Function.comp, List.filterMap,
     List.find?]
     refine ⟨"src/invoice.ts:generate:30", 1, by decide, rfl, rfl, by decide⟩,
   c2_confidence_pruning egGraph "calculateTotal" Direction.upstream 3
     defaultRelationTypes (7/10)
     ⟨"src/invoice.ts:generate:30", 1, "will break"⟩ (by
     norm_num [computeImpact, egGraph, egCalculateTotal, egGenerate,
     egRender, reachedNodes, addLevel, frontierAt, expandFrontier,
     neighborsOf, riskForDepth, defaultRelationTypes, List.range_succ,
     List.range_zero, List.filter, Function.comp, List.filterMap,
     List.find?]
     refine ⟨"src/invoice.ts:generate:30", 1, by decide, rfl, rfl, by decide⟩)⟩

/-- C3: the risk classification of a reached node is the fixed function
of its minimum (shortest-path) depth: depth 1 is "will break", depth 2
"likely affected", depth 3 and beyond "may need testing"; a node
reached at multiple depths is tagged with the minimum depth. -/
theorem c3_depth_risk_mapping (s : GraphState) (target : String)
    (dir : Direction) (maxDepth : Nat) (relationTypes : List String)
    (minConfidence : ℚ) (e : ImpactEntry)
    (h : e ∈ (computeImpact s target dir maxDepth relationTypes
        minConfidence).results) :
    riskForDepth 1 = "will break" ∧
    riskForDepth 2 = "likely affected" ∧
    (∀ d, 3 ≤ d → riskForDepth d = "may need testing") ∧
    1 ≤ e.depth ∧
    e.risk = riskForDepth e.depth ∧
    ∃ tn, s.nodes.find? (fun n => n.name == target) = some tn ∧
      (∃ c, (e.nodeId, c) ∈
        frontierAt s.edges relationTypes dir minConfidence tn.id e.depth) ∧
      (∀ k c, 1 ≤ k →
        (e.nodeId, c) ∈
          frontierAt s.edges relationTypes dir minConfidence tn.id k →
        e.depth ≤ k) := by
  have hfix : ∀ d, 3 ≤ d → riskForDepth d = "may need testing" := by
    intro d hd
    unfold riskForDepth
    rw [if_neg (by omega), if_neg (by omega)]
  unfold computeImpact at h
  cases hfind : s.nodes.find? (fun n => n.name == target) with
  | none => rw [hfind] at h; simp at h
  | some tn =>
      rw [hfind] at h
      simp only [List.mem_map] at h
      obtain ⟨p, hp, rfl⟩ := h
      obtain ⟨h1, h2, c, hc⟩ :=
        mem_reachedNodes_bound s.edges relationTypes dir minConfidence
          tn.id maxDepth p hp
      refine ⟨rfl, rfl, hfix, h1, rfl, tn, rfl, ⟨c, hc⟩, ?_⟩
      intro k c' hk hfr
      exact reachedNodes_min_depth s.edges relationTypes dir minConfidence
        tn.id maxDepth p.1 p.2 k c' hp hk hfr

/-- C3 witness: in the example graph, generate is a depth-1 impact
result of calculateTotal, rated by the fixed mapping. -/
theorem c3_depth_risk_mapping_witness :
    ((⟨"src/invoice.ts:generate:30", 1, "will break"⟩ : ImpactEntry) ∈
      (computeImpact egGraph "calculateTotal" Direction.upstream 3
        defaultRelationTypes (7/10)).results) ∧
    (⟨"src/invoice.ts:generate:30", 1, "will break"⟩ : ImpactEntry).risk =
      riskForDepth (⟨"src/invoice.ts:generate:30", 1,
        "will break"⟩ : ImpactEntry).depth :=
  ⟨by
     norm_num [computeImpact, egGraph, egCalculateTotal, egGenerate,
     egRender, reachedNodes, addLevel, frontierAt, expandFrontier,
     neighborsOf, riskForDepth, defaultRelationTypes, List.range_succ,
     List.range_zero, List.filter, Function.comp, List.filterMap,
     List.find?]
     refine ⟨"src/invoice.ts:generate:30", 1, by decide, rfl, rfl, by decide⟩,
   (c3_depth_risk_mapping egGraph "calculateTotal" Direction.upstream 3
     defaultRelationTypes (7/10)
     ⟨"src/invoice.ts:generate:30", 1, "will break"⟩
     (by
     norm_num [computeImpact, egGraph, egCalculateTotal, egGenerate,
     egRender, reachedNodes, addLevel, frontierAt, expandFrontier,
     neighborsOf, riskForDepth, defaultRelationTypes, List.range_succ,
     List.range_zero, List.filter, Function.comp, List.filterMap,
     List.find?]
     refine ⟨"src/invoice.ts:generate:30", 1, by decide, rfl, rfl, by decide⟩)).2.2.2.2.1⟩

/-- C5: computeImpact is monotone in its depth bound: with all other
parameters fixed, every result at depth bound d is a result at any
depth bound d' at least d. -/
theorem c5_impact_monotone (s : GraphState) (target : String)
    (dir : Direction) (d d' : Nat) (relationTypes : List String)
    (minConfidence : ℚ) (h : d ≤ d') (e : ImpactEntry)
    (he : e ∈ (computeImpact s target dir d relationTypes
        minConfidence).results) :
    e ∈ (computeImpact s target dir d' relationTypes
        minConfidence).results := by
  cases hfind : s.nodes.find? (fun n => n.name == target) with
  | none => simp only [computeImpact, hfind] at he; simp at he
  | some tn =>
      simp only [computeImpact, hfind, List.mem_map] at he ⊢
      obtain ⟨p, hp, rfl⟩ := he
      exact ⟨p,
        (reachedNodes_mono s.edges relationTypes dir minConfidence tn.id
          d d' h).subset hp, rfl⟩

/-- C5 witness: a depth-1 impact result of calculateTotal is also a
result at depth bound 3. -/
theorem c5_impact_monotone_witness :
    (1 ≤ 3 ∧
     (⟨"src/invoice.ts:generate:30", 1, "will break"⟩ : ImpactEntry) ∈
       (computeImpact egGraph "calculateTotal" Direction.upstream 1
         defaultRelationTypes (7/10)).results) ∧
    (⟨"src/invoice.ts:generate:30", 1, "will break"⟩ : ImpactEntry) ∈
      (computeImpact egGraph "calculateTotal" Direction.upstream 3
        defaultRelationTypes (7/10)).results :=
  ⟨⟨by decide, by
     norm_num [computeImpact, egGraph, egCalculateTotal, egGenerate,
     egRender, reachedNodes, addLevel, frontierAt, expandFrontier,
     neighborsOf, riskForDepth, defaultRelationTypes, List.range_succ,
     List.range_zero, List.filter, Function.comp, List.filterMap,
     List.find?]⟩,
   c5_impact_monotone egGraph "calculateTotal" Direction.upstream 1 3
     defaultRelationTypes (7/10) (by decide)
     ⟨"src/invoice.ts:generate:30", 1, "will break"⟩ (by
     norm_num [computeImpact, egGraph, egCalculateTotal, egGenerate,
     egRender, reachedNodes, addLevel, frontierAt, expandFrontier,
     neighborsOf, riskForDepth, defaultRelationTypes, List.range_succ,
     List.range_zero, List.filter, Function.comp, List.filterMap,
     List.find?])⟩

/-- C8: an impact query on a target that does not exist in the graph
returns (never throws) the empty result carrying the explicit
target-not-found marker; the empty result is a valid, non-error
outcome. -/
theorem c8_unknown_target_not_error (s : GraphState) (target : String)
    (dir : Direction) (maxDepth : Nat) (relationTypes : List String)
    (minConfidence : ℚ)
    (h : s.nodes.find? (fun n => n.name == target) = none) :
    computeImpact s target dir maxDepth relationTypes minConfidence =
      ⟨false, []⟩ := by
  simp only [computeImpact, h]

/-- C8 witness: querying a name absent from the example graph yields
the marked empty result. -/
theorem c8_unknown_target_not_error_witness :
    egGraph.nodes.find? (fun n => n.name == "noSuchSymbol") = none ∧
    computeImpact egGraph "noSuchSymbol" Direction.upstream 3
      defaultRelationTypes (7/10) = ⟨false, []⟩ :=
  ⟨by decide,
   c8_unknown_target_not_error egGraph "noSuchSymbol" Direction.upstream 3
     defaultRelationTypes (7/10) (by decide)⟩

/-- C9 witness: the impact tool is a member of GITNEXUS_TOOLS and
satisfies the well-formedness property. -/
theorem c9_tools_well_formed_witness :
    (⟨"impact",
      ⟨"object",
       [⟨"target", "string", none⟩, ⟨"direction", "string", none⟩,
        ⟨"maxDepth", "number", none⟩, ⟨"relationTypes", "array", some "string"⟩,
        ⟨"includeTests", "boolean", none⟩, ⟨"minConfidence", "number", none⟩],
       ["target", "direction"]⟩⟩ : ToolDefinition) ∈ GITNEXUS_TOOLS ∧
    (⟨"impact",
      ⟨"object",
       [⟨"target", "string", none⟩, ⟨"direction", "string", none⟩,
        ⟨"maxDepth", "number", none⟩, ⟨"relationTypes", "array", some "string"⟩,
        ⟨"includeTests", "boolean", none⟩, ⟨"minConfidence", "number", none⟩],
       ["target", "direction"]⟩⟩ : ToolDefinition).inputSchema.type = "object" :=
  ⟨by decide, (c9_tools_well_formed _ (by decide)).1⟩

/- ===================================================================
   Ingestion and sync lemmas
   =================================================================== -/

/-- dedupById only drops rows. -/
theorem mem_dedupById : ∀ (l : List CodeNode) (n : CodeNode),
    n ∈ dedupById l → n ∈ l := by
  intro l
  induction l using dedupById.induct with
  | case1 => intro n h; simp [dedupById] at h
  | case2 m rest ih =>
      intro n h
      rw [dedupById] at h
      rcases List.mem_cons.mp h with h' | h'
      · simp [h']
      · exact List.mem_cons_of_mem _ (List.mem_of_mem_filter (ih n h'))

/-- dedupById enforces the primary key inside one batch. -/
theorem dedupById_ids_nodup : ∀ (l : List CodeNode),
    ((dedupById l).map CodeNode.id).Nodup := by
  intro l
  induction l using dedupById.induct with
  | case1 => simp [dedupById]
  | case2 m rest ih =>
      rw [dedupById]
      simp only [List.map_cons, List.nodup_cons]
      refine ⟨?_, ih⟩
      intro hcontra
      obtain ⟨n, hn, hnid⟩ := List.mem_map.mp hcontra
      have hfil := List.of_mem_filter (mem_dedupById _ n hn)
      simp only [Bool.not_eq_true', beq_eq_false_iff_ne, ne_eq] at hfil
      exact hfil hnid

/-- Every node produced by a parse of file f carries filePath f. -/
theorem parsedNodes_filePath (f : String) (out : ParseOutput) :
    ∀ p ∈ parsedNodes f out, p.filePath = f := by
  intro p hp
  rcases List.mem_cons.mp hp with h | h
  · rw [h]; rfl
  · obtain ⟨sym, _, rfl⟩ := List.mem_map.mp h
    rfl

/-- Replacing the node set of a file twice with the same parse equals
replacing it once. -/
theorem replaceFileNodes_idem (f : String) (parsed : List CodeNode)
    (hp : ∀ p ∈ parsed, p.filePath = f) (nodes : List CodeNode) :
    replaceFileNodes (replaceFileNodes nodes f parsed) f parsed =
      replaceFileNodes nodes f parsed := by
  unfold replaceFileNodes
  rw [List.filter_append]
  have h2 : parsed.filter
      (fun n => decide (¬ n.filePath = f ∧
        n.id ∉ parsed.map CodeNode.id)) = [] := by
    refine List.filter_eq_nil_iff.mpr ?_
    intro p hmem
    simp [hp p hmem]
  rw [h2, List.append_nil, List.filter_filter]
  simp only [Bool.and_self]

/-- After a replace, re-running the same parse removes nothing. -/
theorem removedByParse_replace (nodes : List CodeNode) (f : String)
    (parsed : List CodeNode) :
    removedByParse (replaceFileNodes nodes f parsed) f parsed = [] := by
  unfold removedByParse replaceFileNodes
  rw [List.filter_append]
  have h1 : (nodes.filter
      (fun n => decide (¬ n.filePath = f ∧
        n.id ∉ parsed.map CodeNode.id))).filter
      (fun n => decide (n.filePath = f ∧
        n.id ∉ parsed.map CodeNode.id)) = [] := by
    refine List.filter_eq_nil_iff.mpr ?_
    intro n hn
    have hk := List.of_mem_filter hn
    simp only [decide_eq_true_eq] at hk
    simp [hk.1]
  have h2 : parsed.filter
      (fun n => decide (n.filePath = f ∧
        n.id ∉ parsed.map CodeNode.id)) = [] := by
    refine List.filter_eq_nil_iff.mpr ?_
    intro p hp2
    have hin : p.id ∈ parsed.map CodeNode.id :=
      List.mem_map.mpr ⟨p, hp2, rfl⟩
    simp [hin]
  rw [h1, h2]
  rfl

/-- Cascading over an empty removal set keeps every edge. -/
theorem cascadeEdges_nil (edges : List CodeRelation) :
    cascadeEdges edges [] = edges := by
  simp [cascadeEdges]

/-- Every new edge is present after an upsert. -/
theorem mem_upsertEdges (old new : List CodeRelation) (e : CodeRelation)
    (he : e ∈ new) : e ∈ upsertEdges old new := by
  unfold upsertEdges
  by_cases h : e ∈ old
  · exact List.mem_append_left _ h
  · exact List.mem_append_right _
      (List.mem_filter.mpr ⟨he, by simpa using h⟩)

/-- Upserting a batch that is already stored changes nothing. -/
theorem upsertEdges_of_subset (old new : List CodeRelation)
    (h : ∀ e ∈ new, e ∈ old) : upsertEdges old new = old := by
  unfold upsertEdges
  have h2 : new.filter (fun e => decide (e ∉ old)) = [] :=
    List.filter_eq_nil_iff.mpr (fun e he => by simp [h e he])
  rw [h2, List.append_nil]

/-- Re-upserting the batch just upserted changes nothing. -/
theorem upsertEdges_upsert_absorb (old new : List CodeRelation) :
    upsertEdges (upsertEdges old new) new = upsertEdges old new :=
  upsertEdges_of_subset _ _ (fun e he => mem_upsertEdges old new e he)

/-- No parsed node is missing from the replaced node set. -/
theorem filter_not_mem_replace (nodes : List CodeNode) (f : String)
    (parsed : List CodeNode) :
    parsed.filter
      (fun n => decide (n ∉ replaceFileNodes nodes f parsed)) = [] := by
  refine List.filter_eq_nil_iff.mpr ?_
  intro p hp2
  have hin : p ∈ replaceFileNodes nodes f parsed :=
    List.mem_append_right _ hp2
  simp [hin]

/-- No edge of the batch just upserted is missing from the store. -/
theorem filter_not_mem_upsert (old new : List CodeRelation) :
    new.filter (fun e => decide (e ∉ upsertEdges old new)) = [] := by
  refine List.filter_eq_nil_iff.mpr ?_
  intro e he
  have hin := mem_upsertEdges old new e he
  simp [hin]

/-- No edge touches an empty removal set. -/
theorem filter_removed_nil (edges : List CodeRelation) :
    edges.filter
      (fun e => decide (e.fromId ∈ ([] : List String) ∨
        e.toId ∈ ([] : List String))) = [] := by
  simp

/-- C6: ingest is idempotent: re-ingesting a file with identical
content immediately after a successful ingest produces an empty Delta
and leaves the graph state unchanged. -/
theorem c6_ingest_idempotent (parse : String → String → ParseOutput)
    (s : GraphState) (f c : String) :
    (ingest parse (ingest parse s f c).1 f c).1 = (ingest parse s f c).1 ∧
    ((ingest parse (ingest parse s f c).1 f c).2).isEmpty = true := by
  have hp : ∀ p ∈ dedupById (parsedNodes f (parse f c)), p.filePath = f :=
    fun p hm => parsedNodes_filePath f (parse f c) p (mem_dedupById _ p hm)
  simp only [ingest]
  simp only [replaceFileNodes_idem f _ hp, removedByParse_replace,
    List.map_nil, cascadeEdges_nil, upsertEdges_upsert_absorb,
    filter_not_mem_replace, filter_not_mem_upsert, filter_removed_nil,
    Delta.isEmpty, List.isEmpty_nil, Bool.and_self, and_self]

/-- Keeping a filtered slice of a duplicate-free node table and
appending fresh rows whose ids the filter excludes preserves primary
key uniqueness. -/
theorem nodup_ids_filter_append (nodes : List CodeNode)
    (p : CodeNode → Bool) (fresh : List CodeNode)
    (hn : (nodes.map CodeNode.id).Nodup)
    (hf : (fresh.map CodeNode.id).Nodup)
    (hdisj : ∀ n, p n = true → n.id ∉ fresh.map CodeNode.id) :
    ((nodes.filter p ++ fresh).map CodeNode.id).Nodup := by
  rw [List.map_append, List.nodup_append]
  refine ⟨List.Nodup.sublist ((List.filter_sublist nodes).map CodeNode.id)
    hn, hf, ?_⟩
  intro a ha hb
  obtain ⟨n, hn2, rfl⟩ := List.mem_map.mp ha
  exact hdisj n (List.of_mem_filter hn2) hb

/-- C4: the graph store holds exactly one CodeNode per id: id is the
declared primary key of the CodeNode table; the fresh empty store
satisfies the invariant, and ingest, a derivation pass, hydration of
any duplicate-free manifest, and export-then-hydration each preserve
it, so the store holds one row per id at all times.  The id assigned
to a parsed symbol is the pure function nodeId of
(filePath, name, startLine), so re-ingesting unchanged code
reproduces the same id instead of minting a fresh one. -/
theorem c4_primary_key_uniqueness (parse : String → String → ParseOutput)
    (s : GraphState) (f c commit : String) (derived : List CodeNode)
    (derivedEdges : List CodeRelation) (m : Manifest) (h : UniqueIds s)
    (hm : (m.nodeRecords.map CodeNode.id).Nodup) :
    nodeSchemaPrimaryKey = "id" ∧
    UniqueIds (⟨[], []⟩ : GraphState) ∧
    UniqueIds (ingest parse s f c).1 ∧
    UniqueIds (runDerivationPass s derived derivedEdges) ∧
    UniqueIds (hydrate m) ∧
    UniqueIds (hydrate (exportManifest commit s)) ∧
    ∀ (f2 : String) (sym : ParsedSymbol),
      (symbolNode f2 sym).id = nodeId f2 sym.name sym.startLine := by
  refine ⟨rfl, by simp [UniqueIds], ?_, ?_, hm, ?_, fun _ _ => rfl⟩
  · exact nodup_ids_filter_append s.nodes
      (fun n => decide (¬ n.filePath = f ∧
        n.id ∉ (dedupById (parsedNodes f (parse f c))).map CodeNode.id))
      (dedupById (parsedNodes f (parse f c))) h (dedupById_ids_nodup _)
      (fun n hpn => by
        simp only [decide_eq_true_eq] at hpn
        exact hpn.2)
  · exact nodup_ids_filter_append
      (s.nodes.filter
        (fun n => decide (¬ n.label = "Cluster" ∧ ¬ n.label = "Process")))
      (fun n => decide (n.id ∉ (dedupById derived).map CodeNode.id))
      (dedupById derived)
      (List.Nodup.sublist ((List.filter_sublist s.nodes).map CodeNode.id) h)
      (dedupById_ids_nodup _)
      (fun n hpn => by simpa using hpn)
  · have hperm :
        ((hydrate (exportManifest commit s)).nodes.map CodeNode.id).Perm
          ((s.nodes.map stripContent).map CodeNode.id) :=
      (List.perm_insertionSort _ _).map _
    have hids : (s.nodes.map stripContent).map CodeNode.id =
        s.nodes.map CodeNode.id := by
      rw [List.map_map]
      exact List.map_congr_left (fun n _ => rfl)
    rw [hids] at hperm
    exact hperm.symm.nodup h

/-- C4 witness: a concrete duplicate-free store and a concrete
duplicate-free manifest; the store stays duplicate-free through an
ingest. -/
theorem c4_primary_key_uniqueness_witness :
    (UniqueIds egGraph ∧
     ((⟨"commit1", 1, [egCalculateTotal], []⟩ : Manifest).nodeRecords.map
       CodeNode.id).Nodup) ∧
    UniqueIds (ingest (fun _ _ =>
      ⟨[⟨"foo", "Function", 1, 2⟩], [⟨"foo", "calculateTotal", "CALLS"⟩]⟩)
      egGraph "src/new.ts" "function foo").1 :=
  ⟨⟨by decide, by decide⟩,
   (c4_primary_key_uniqueness (fun _ _ =>
      ⟨[⟨"foo", "Function", 1, 2⟩], [⟨"foo", "calculateTotal", "CALLS"⟩]⟩)
      egGraph "src/new.ts" "function foo" "commit1" [] []
      ⟨"commit1", 1, [egCalculateTotal], []⟩
      (by decide) (by decide)).2.2.1⟩

/-- C7: export followed by hydration into a fresh store is a round
trip up to the content field: the hydrated node multiset equals the
original nodes with content excluded, and the hydrated edge multiset
equals the original edges. -/
theorem c7_manifest_round_trip (commit : String) (s : GraphState) :
    (hydrate (exportManifest commit s)).nodes.Perm
      (s.nodes.map stripContent) ∧
    (hydrate (exportManifest commit s)).edges.Perm s.edges ∧
    (exportManifest commit s).commitId = commit :=
  ⟨List.perm_insertionSort _ _, List.perm_insertionSort _ _, rfl⟩

/-- A slice never reads outside the array it slices. -/
theorem jsSlice_sublist {α : Type} (l : List α) (s e : Int) :
    (jsSlice l s e).Sublist l := by
  unfold jsSlice
  exact (List.take_sublist _ _).trans (List.drop_sublist _ _)

/-- C10: every snippet record is in bounds: when the content is
loaded, start is at least 0, endIdx is at most totalLines - 1, the
slice taken is a sub-selection of the line array of the file (so it never
indexes outside it), and both highlight bounds are at least 0; when
the content is absent, a null-content record with zeroed bounds is
returned instead of failing. -/
theorem c10_snippet_window_in_bounds
    (fileContents : List (String × String))
    (aiReferences : List CodeReference) (r : SnippetRecord)
    (h : r ∈ refsWithSnippets fileContents aiReferences) :
    (r.content = none ∧ r.start = 0 ∧ r.endIdx = 0 ∧
     r.highlightStart = 0 ∧ r.highlightEnd = 0 ∧ r.totalLines = 0) ∨
    (0 ≤ r.start ∧ r.endIdx ≤ r.totalLines - 1 ∧
     0 ≤ r.highlightStart ∧ 0 ≤ r.highlightEnd ∧
     ∃ content, lookupContent fileContents r.ref.filePath = some content ∧
       r.totalLines = (splitLines content).length ∧
       ∃ sl, sl.Sublist (splitLines content) ∧
         r.content = some (String.intercalate "\n" sl)) := by
  obtain ⟨ref, href, rfl⟩ := List.mem_map.mp h
  cases hlook : lookupContent fileContents ref.filePath with
  | none => exact Or.inl (by simp [hlook])
  | some content =>
      by_cases hc : content = ""
      · exact Or.inl (by simp [hlook, hc])
      · refine Or.inr ?_
        simp only [hlook, hc, if_neg hc]
        refine ⟨le_max_left _ _, min_le_left _ _, le_max_left _ _,
          le_max_left _ _, content, hlook, rfl, jsSlice _ _ _,
          jsSlice_sublist _ _ _, rfl⟩

/-- C10 witness: a loaded three-line file yields an in-bounds snippet
record. -/
theorem c10_snippet_window_in_bounds_witness :
    ((⟨⟨"r1", "a.ts", some "foo", some "Function", none, some 1, some 1⟩,
       some "l1\nl2\nl3", 0, 2, 1, 1, 3⟩ : SnippetRecord) ∈
      refsWithSnippets [("a.ts", "l1\nl2\nl3")]
        [⟨"r1", "a.ts", some "foo", some "Function", none,
          some 1, some 1⟩]) ∧
    (0 : Int) ≤
      (⟨⟨"r1", "a.ts", some "foo", some "Function", none, some 1, some 1⟩,
        some "l1\nl2\nl3", 0, 2, 1, 1, 3⟩ : SnippetRecord).start :=
  ⟨by decide,
   match c10_snippet_window_in_bounds [("a.ts", "l1\nl2\nl3")]
      [⟨"r1", "a.ts", some "foo", some "Function", none, some 1, some 1⟩]
      ⟨⟨"r1", "a.ts", some "foo", some "Function", none, some 1, some 1⟩,
       some "l1\nl2\nl3", 0, 2, 1, 1, 3⟩ (by decide) with
   | Or.inl hl => absurd hl.1 (by decide)
   | Or.inr hr => hr.1⟩

end GitNexus
